import Mathlib

/-!
Verification of the EPyT foreign-function compatibility shim
(`epyt/src/epanet_cffi_compat.py`) together with its library-loading callers
(`epyt/src/epanetapi.py`, `epyt/src/epanetmsxapi.py`).

Embedding conventions: Python `str` text is `List Char`, restricted to the
ASCII reading of the character classes `\w` and `\s` used by the module's
regular expressions (every input exercised here is ASCII); Python `bytes`
is `List Nat` with entries below 256; module-level mutable globals become
explicit state records threaded through the functions that mutate them; the
regular-expression substitutions and the prototype matcher `_FUNC_RE` are
embedded as character scanners that follow Python's leftmost,
non-overlapping `re.sub`/`finditer` semantics, with the greedy/lazy
backtracking of each concrete pattern resolved once and for all (each such
resolution is justified in the corresponding doc comment).  Scanners whose
recursion is not structural carry an explicit fuel argument; callers pass
the input length, which every scanner strictly decreases per step, so the
fuel never runs out on the inputs reasoned about.
-/

namespace EpytCompat

/-! ## Character classes of the module's regular expressions (ASCII reading) -/

/-- Python `\s` restricted to ASCII: space, tab, newline, carriage return,
vertical tab, form feed. -/
def isSpaceC (c : Char) : Bool :=
  c = ' ' || c = '\t' || c = '\n' || c = '\x0d' || c = '\x0b' || c = '\x0c'

/-- ASCII letter or underscore, the class `[a-zA-Z_]`. -/
def isAlphaUnd (c : Char) : Bool :=
  ('a' ≤ c && c ≤ 'z') || ('A' ≤ c && c ≤ 'Z') || c = '_'

/-- The class `[A-Za-z0-9_]` (also Python `\w` in its ASCII reading). -/
def isWordC (c : Char) : Bool :=
  isAlphaUnd c || ('0' ≤ c && c ≤ '9')

/-- The class `[ \t]` of horizontal whitespace. -/
def isHorizC (c : Char) : Bool :=
  c = ' ' || c = '\t'

/-- The class `[\w\s\*\(\),\[\]]` of return-type/qualifier text in
`_FUNC_RE`. -/
def isProtoHeadC (c : Char) : Bool :=
  isWordC c || isSpaceC c || c = '*' || c = '(' || c = ')' || c = ',' ||
    c = '[' || c = ']'

/-- Longest run of characters satisfying `p`, returned with the remainder. -/
def takeRun (p : Char → Bool) : List Char → List Char × List Char
  | [] => ([], [])
  | c :: cs =>
    if p c then
      let r := takeRun p cs
      (c :: r.1, r.2)
    else ([], c :: cs)

theorem takeRun_append (p : Char → Bool) (l : List Char) :
    (takeRun p l).1 ++ (takeRun p l).2 = l := by
  induction l with
  | nil => rfl
  | cons c cs ih => by_cases h : p c <;> simp [takeRun, h, ih]

/-! ## Comment, preprocessor and extern-C stripping

These embed, in order, the four substitutions of `_load_decls_from_header`:
`_BLOCK_COMMENT_RE.sub("", text)`, `_LINE_COMMENT_RE.sub("", text)`,
`_PREPROC_RE.sub("", text)`, `_EXTERN_C_RE.sub("", text)`. -/

/-- Skip up to and including the nearest block-comment closer (the two
characters star, slash); `none` when no closer follows, in which case the
lazy pattern `/\*.*?\*/` has no match starting at this opener (nor at any
later one, since no closer exists further right either). -/
def skipBlockClose : List Char → Option (List Char)
  | [] => none
  | '*' :: '/' :: rest => some rest
  | _ :: rest => skipBlockClose rest

/-- `_BLOCK_COMMENT_RE.sub("", text)`: each `/*` opener is deleted together
with everything up to the nearest `*/` (lazy `.*?` under DOTALL); an opener
with no closer does not match and the remaining text is kept verbatim. -/
def removeBlockComments (fuel : Nat) : List Char → List Char
  | [] => []
  | '/' :: '*' :: rest =>
    match fuel, skipBlockClose rest with
    | _, none => '/' :: '*' :: rest
    | 0, some _ => []
    | f + 1, some rest2 => removeBlockComments f rest2
  | c :: rest =>
    match fuel with
    | 0 => c :: rest
    | f + 1 => c :: removeBlockComments f rest

/-- `_LINE_COMMENT_RE.sub("", text)` for the MULTILINE pattern `//.*?$`:
each `//` is deleted together with the remainder of its line; the newline
itself is kept (the lazy `.*?` stops at the first position where `$`
holds, i.e. before the next newline or at end of text). -/
def removeLineComments (fuel : Nat) : List Char → List Char
  | [] => []
  | '/' :: '/' :: rest =>
    match fuel with
    | 0 => []
    | f + 1 => removeLineComments f (takeRun (· != '\n') rest).2
  | c :: rest =>
    match fuel with
    | 0 => c :: rest
    | f + 1 => c :: removeLineComments f rest

/-- `_PREPROC_RE.sub("", text)` for the MULTILINE pattern `^\s*#.*?$`:
at a line start, a whitespace run (which `\s` lets cross newlines) followed
by `#` is deleted together with the rest of that line; the greedy `\s*` can
only hand over to `#` at the end of the full run, since `#` is not
whitespace.  `atStart` tracks whether the current position is a line start
of the original text, which is where `^` may match. -/
def removePreproc (fuel : Nat) (atStart : Bool) : List Char → List Char
  | [] => []
  | c :: rest =>
    match fuel with
    | 0 => c :: rest
    | f + 1 =>
      if atStart then
        match (takeRun isSpaceC (c :: rest)).2 with
        | '#' :: r2 => removePreproc f false (takeRun (· != '\n') r2).2
        | _ => c :: removePreproc f (c = '\n') rest
      else c :: removePreproc f (c = '\n') rest

/-- First alternative of `_EXTERN_C_RE`, the pattern `extern\s+"C"\s*\{?`,
tried at every position.  Returns the remainder after the match and whether
the last consumed character was a newline (which determines whether the
next scanning position is a line start of the original text). -/
def matchExternA (l : List Char) : Option (List Char × Bool) :=
  if l.take 6 = "extern".toList then
    let l1 := l.drop 6
    let ws := takeRun isSpaceC l1
    if ws.1 = [] then none
    else if ws.2.take 3 = ['"', 'C', '"'] then
      let r2 := ws.2.drop 3
      let ws2 := takeRun isSpaceC r2
      match ws2.2 with
      | '{' :: r4 => some (r4, false)
      | r3 => some (r3, ws2.1.getLast? = some '\n')
    else none
  else none

/-- Suffix starting right after the last newline of the list, when the list
contains one. -/
def afterLastNl : List Char → Option (List Char)
  | [] => none
  | c :: cs =>
    match afterLastNl cs with
    | some s => some s
    | none => if c = '\n' then some cs else none

/-- Suffix starting at the last newline of the list (the newline included),
when the list contains one. -/
def fromLastNl : List Char → Option (List Char)
  | [] => none
  | c :: cs =>
    match fromLastNl cs with
    | some s => some s
    | none => if c = '\n' then some (c :: cs) else none

/-- Second alternative of `_EXTERN_C_RE`, the MULTILINE pattern
`^\s*\}\s*$`, tried at line starts: leading whitespace (possibly crossing
newlines), a closing brace, then trailing whitespace up to a line end.  The
greedy trailing `\s*` consumes everything when end of text follows the run,
and otherwise stops before the last newline inside the run (later stops
are not line ends, since the character after a maximal whitespace run is
neither a newline nor the end). -/
def matchExternB (l : List Char) : Option (List Char) :=
  match (takeRun isSpaceC l).2 with
  | '}' :: r2 =>
    let ws2 := takeRun isSpaceC r2
    if ws2.2 = [] then some []
    else
      match fromLastNl ws2.1 with
      | some s => some (s ++ ws2.2)
      | none => none
  | _ => none

/-- `_EXTERN_C_RE.sub("", text)`: alternative `matchExternA` is tried first
at every position, alternative `matchExternB` only at line starts. -/
def removeExternC (fuel : Nat) (atStart : Bool) : List Char → List Char
  | [] => []
  | c :: rest =>
    match fuel with
    | 0 => c :: rest
    | f + 1 =>
      match matchExternA (c :: rest) with
      | some (r, st) => removeExternC f st r
      | none =>
        if atStart then
          match matchExternB (c :: rest) with
          | some r => removeExternC f false r
          | none => c :: removeExternC f (c = '\n') rest
        else c :: removeExternC f (c = '\n') rest

/-! ## Token substitution and whitespace normalisation -/

/-- `re.sub(r"\b<tok>\b", rep, text)` for a literal token `tok` that starts
and ends with word characters (true of every macro token and type alias in
the module): the token is replaced by `rep` wherever it is not adjacent to
a word character in the original text.  `prevWord` says whether the
character before the current position of the original text is a word
character; after a match it is true, since every token ends with one. -/
def substTokenWB (tok rep : List Char) (fuel : Nat) (prevWord : Bool) :
    List Char → List Char
  | [] => []
  | c :: rest =>
    match fuel with
    | 0 => c :: rest
    | f + 1 =>
      if !prevWord && (c :: rest).take tok.length = tok &&
          (match (c :: rest).drop tok.length with
           | [] => true
           | d :: _ => !isWordC d) then
        rep ++ substTokenWB tok rep f true ((c :: rest).drop tok.length)
      else c :: substTokenWB tok rep f (isWordC c) rest

/-- `re.sub(r"[ \t]+", " ", text)`: each maximal horizontal-whitespace run
becomes a single space. -/
def collapseHoriz (fuel : Nat) : List Char → List Char
  | [] => []
  | c :: rest =>
    match fuel with
    | 0 => c :: rest
    | f + 1 =>
      if isHorizC c then ' ' :: collapseHoriz f (takeRun isHorizC rest).2
      else c :: collapseHoriz f rest

/-- `re.sub(r"\s+", " ", text)`: each maximal whitespace run becomes a
single space. -/
def collapseAllWs (fuel : Nat) : List Char → List Char
  | [] => []
  | c :: rest =>
    match fuel with
    | 0 => c :: rest
    | f + 1 =>
      if isSpaceC c then ' ' :: collapseAllWs f (takeRun isSpaceC rest).2
      else c :: collapseAllWs f rest

/-- `re.sub(r"\s+\n", "\n", text)`: a match needs a whitespace run whose
character at some index `j ≥ 1` is a newline; the greedy `\s+` picks the
largest such `j`, so the run up to and including its last newline (when
that newline is not the run's first character) collapses to one newline.
When the maximal run starting at the current position has no newline past
index 0, there is no match here and one character is copied. -/
def subWsNl (fuel : Nat) : List Char → List Char
  | [] => []
  | c :: rest =>
    match fuel with
    | 0 => c :: rest
    | f + 1 =>
      if isSpaceC c then
        match afterLastNl (takeRun isSpaceC rest).1 with
        | some s => '\n' :: subWsNl f (s ++ (takeRun isSpaceC rest).2)
        | none => c :: subWsNl f rest
      else c :: subWsNl f rest

/-- Python `str.strip()` in its ASCII reading: leading and trailing
whitespace removed. -/
def pyStrip (l : List Char) : List Char :=
  ((takeRun isSpaceC ((takeRun isSpaceC l).2.reverse)).2).reverse

/-! ## The prototype matcher `_FUNC_RE`

The pattern is
`(?:[a-zA-Z_][\w\s\*\(\),\[\]]*?\s+)? (EN_|EN|MSX_|MSX)[A-Za-z0-9_]+ \s*\(
[^;]*? \) \s* ;` (spacing added).  The name alternation
`EN_[A-Za-z0-9_]+|EN[A-Za-z0-9_]+|MSX_[A-Za-z0-9_]+|MSX[A-Za-z0-9_]+` is
fused below into: family keyword (`EN` or `MSX`) followed by a nonempty
maximal word run — equivalent because `_` belongs to `[A-Za-z0-9_]`, so
whenever the underscore branch matches the no-underscore branch matches the
same extent, and because what follows the name (`\s*\(`) cannot start with
a word character, the greedy `+` never has to backtrack below the maximal
run. -/

/-- The name part of `_FUNC_RE` (see the fusion argument above): family
keyword and the maximal nonempty word run after it. -/
def matchNameRun (l : List Char) : Option (List Char × List Char) :=
  if l.take 2 = ['E', 'N'] then
    let r := takeRun isWordC (l.drop 2)
    if r.1 = [] then none else some ('E' :: 'N' :: r.1, r.2)
  else if l.take 3 = ['M', 'S', 'X'] then
    let r := takeRun isWordC (l.drop 3)
    if r.1 = [] then none else some ('M' :: 'S' :: 'X' :: r.1, r.2)
  else none

/-- The argument-list part `[^;]*?\)\s*;` of `_FUNC_RE`, entered just after
the opening parenthesis: the lazy `[^;]*?` expands one non-semicolon
character at a time, and at each closing parenthesis the continuation
`\s*;` is tried first; reaching a semicolon (which `[^;]` cannot consume)
without success fails the attempt. -/
def matchArgsClose : List Char → Option (List Char × List Char)
  | [] => none
  | c :: cs =>
    if c = ';' then none
    else if c = ')' then
      let ws := takeRun isSpaceC cs
      match ws.2 with
      | ';' :: r2 => some (')' :: (ws.1 ++ [';']), r2)
      | _ => (matchArgsClose cs).map (fun pr => (')' :: pr.1, pr.2))
    else (matchArgsClose cs).map (fun pr => (c :: pr.1, pr.2))

/-- The part `\s*\([^;]*?\)\s*;` of `_FUNC_RE` that follows the name. -/
def matchAfterName (l : List Char) : Option (List Char × List Char) :=
  let ws := takeRun isSpaceC l
  match ws.2 with
  | '(' :: r2 => (matchArgsClose r2).map (fun pr => (ws.1 ++ '(' :: pr.1, pr.2))
  | _ => none

/-- Name plus argument list: everything of `_FUNC_RE` past the optional
return-type group. -/
def matchTail (l : List Char) : Option (List Char × List Char) :=
  match matchNameRun l with
  | none => none
  | some (nm, r) => (matchAfterName r).map (fun pr => (nm ++ pr.1, pr.2))

/-- Interior of the optional return-type group
`[a-zA-Z_][\w\s\*\(\),\[\]]*?\s+` once its first character is consumed:
the lazy `*?` first tries the continuation `\s+` followed by the rest of
the pattern, then consumes one class character and retries.  The greedy
`\s+` never backtracks below the maximal whitespace run, because the name
that must follow starts with a non-whitespace character. -/
def prefixLoop : List Char → Option (List Char × List Char)
  | [] => none
  | c :: cs =>
    let tryHere : Option (List Char × List Char) :=
      if isSpaceC c then
        let ws := takeRun isSpaceC (c :: cs)
        match matchTail ws.2 with
        | some (m, rest) => some (ws.1 ++ m, rest)
        | none => none
      else none
    match tryHere with
    | some res => some res
    | none =>
      if isProtoHeadC c then (prefixLoop cs).map (fun pr => (c :: pr.1, pr.2))
      else none

/-- One attempt of `_FUNC_RE` at the current position: the optional group
is greedy, so the with-return-type reading is tried (through all its
backtracks) before the bare-name reading. -/
def matchProtoAt (l : List Char) : Option (List Char × List Char) :=
  match l with
  | [] => none
  | c :: cs =>
    if isAlphaUnd c then
      match prefixLoop cs with
      | some (m, rest) => some (c :: m, rest)
      | none => matchTail (c :: cs)
    else matchTail (c :: cs)

/-- `_FUNC_RE.finditer(text)`: leftmost, non-overlapping matches; scanning
resumes after each match and advances one character past a failed
attempt. -/
def findProtosAux (fuel : Nat) : List Char → List (List Char)
  | [] => []
  | c :: cs =>
    match fuel with
    | 0 => []
    | f + 1 =>
      match matchProtoAt (c :: cs) with
      | some (m, rest) => m :: findProtosAux f rest
      | none => findProtosAux f cs

/-- All matches of `_FUNC_RE` in a text. -/
def findProtos (l : List Char) : List (List Char) :=
  findProtosAux l.length l

/-! ## Per-match normalisation -/

/-- `re.match(r"^(EN_|EN|MSX_|MSX)[A-Za-z0-9_]*\s*\(", proto)`, deciding
whether the normalized prototype starts directly with the function name
(return type omitted).  Fused exactly as in `matchNameRun`, except the word
run may be empty (`*` instead of `+`). -/
def protoNeedsInt (l : List Char) : Bool :=
  if l.take 2 = ['E', 'N'] then
    match (takeRun isSpaceC (takeRun isWordC (l.drop 2)).2).2 with
    | '(' :: _ => true
    | _ => false
  else if l.take 3 = ['M', 'S', 'X'] then
    match (takeRun isSpaceC (takeRun isWordC (l.drop 3)).2).2 with
    | '(' :: _ => true
    | _ => false
  else false

/-- The per-match body of the extraction loop:
`proto = re.sub(r"\s+", " ", m.group("proto").strip())`, then `"int "` is
prepended when the return type was omitted. -/
def normalizeProto (m : List Char) : List Char :=
  let p := collapseAllWs (pyStrip m).length (pyStrip m)
  if protoNeedsInt p then "int ".toList ++ p else p

/-! ## The per-header pipeline of `_load_decls_from_header` -/

/-- The four calling-convention macro tokens of `_CALL_CONV_MACROS`. -/
def callConvMacros : List (List Char) :=
  ["EPANET2_API".toList, "DLLEXPORT".toList, "WINAPI".toList,
   "APIENTRY".toList]

/-- The tokens of `_MACRO_TOKENS_TO_STRIP`. -/
def macroTokensToStrip : List (List Char) :=
  ["__cdecl".toList, "DECLSPEC".toList, "EXPORT".toList]

/-- `_CALL_CONV_KEYWORD`: `"__stdcall"` on a Windows platform, empty
otherwise. -/
def callConvKeyword (win : Bool) : List Char :=
  if win then "__stdcall".toList else []

/-- The whole-text transformation `_load_decls_from_header` applies to one
header before running `_FUNC_RE`: comment/preprocessor/extern-C stripping,
macro substitution, the `EN_API_FLOAT_TYPE` alias of `_TYPE_ALIASES`, and
the two whitespace normalisations. -/
def headerTransform (win : Bool) (text : List Char) : List Char :=
  let t1 := removeBlockComments text.length text
  let t2 := removeLineComments t1.length t1
  let t3 := removePreproc t2.length true t2
  let t4 := removeExternC t3.length true t3
  let t5 := callConvMacros.foldl
    (fun s tok => substTokenWB tok (callConvKeyword win) s.length false s) t4
  let t6 := macroTokensToStrip.foldl
    (fun s tok => substTokenWB tok [] s.length false s) t5
  let t7 := substTokenWB "EN_API_FLOAT_TYPE".toList "float".toList
    t6.length false t6
  let t8 := collapseHoriz t7.length t7
  subWsNl t8.length t8

/-- All normalized prototypes extracted from one header text: the
`for m in _FUNC_RE.finditer(text)` loop. -/
def extractProtos (win : Bool) (text : List Char) : List (List Char) :=
  (findProtos (headerTransform win text)).map normalizeProto

/-! ## Reading header files: UTF-8 with the `ignore` error handler

`path.read_text(encoding="utf-8", errors="ignore")` decodes the file's
bytes as UTF-8 and drops undecodable bytes instead of raising.  The decoder
below validates lead/continuation ranges (rejecting overlong forms,
surrogates and out-of-range lead bytes, as Python's codec does); on an
invalid sequence the `ignore` variant skips the offending lead byte and
resumes, while the strict variant reports failure.  The exact
resynchronisation granularity after an error is immaterial to every
property proved here. -/

/-- UTF-8 continuation byte. -/
def isContB (b : Nat) : Bool := 0x80 ≤ b && b ≤ 0xBF

/-- Valid second byte for a three-byte lead (excludes overlong forms and
surrogates). -/
def isSnd3Ok (b b2 : Nat) : Bool :=
  if b = 0xE0 then 0xA0 ≤ b2 && b2 ≤ 0xBF
  else if b = 0xED then 0x80 ≤ b2 && b2 ≤ 0x9F
  else isContB b2

/-- Valid second byte for a four-byte lead (excludes overlong forms and
codepoints above 0x10FFFF). -/
def isSnd4Ok (b b2 : Nat) : Bool :=
  if b = 0xF0 then 0x90 ≤ b2 && b2 ≤ 0xBF
  else if b = 0xF4 then 0x80 ≤ b2 && b2 ≤ 0x8F
  else isContB b2

/-- UTF-8 decoding with the `ignore` error handler: total. -/
def utf8DecodeIgnoreAux : Nat → List Nat → List Char
  | 0, _ => []
  | _, [] => []
  | f + 1, b :: bs =>
    if b < 0x80 then Char.ofNat b :: utf8DecodeIgnoreAux f bs
    else if 0xC2 ≤ b && b ≤ 0xDF then
      match bs with
      | b2 :: r =>
        if isContB b2 then
          Char.ofNat ((b - 0xC0) * 64 + (b2 - 0x80)) :: utf8DecodeIgnoreAux f r
        else utf8DecodeIgnoreAux f bs
      | [] => utf8DecodeIgnoreAux f bs
    else if 0xE0 ≤ b && b ≤ 0xEF then
      match bs with
      | b2 :: b3 :: r =>
        if isSnd3Ok b b2 && isContB b3 then
          Char.ofNat ((b - 0xE0) * 4096 + (b2 - 0x80) * 64 + (b3 - 0x80)) ::
            utf8DecodeIgnoreAux f r
        else utf8DecodeIgnoreAux f bs
      | _ => utf8DecodeIgnoreAux f bs
    else if 0xF0 ≤ b && b ≤ 0xF4 then
      match bs with
      | b2 :: b3 :: b4 :: r =>
        if isSnd4Ok b b2 && isContB b3 && isContB b4 then
          Char.ofNat ((b - 0xF0) * 262144 + (b2 - 0x80) * 4096 +
            (b3 - 0x80) * 64 + (b4 - 0x80)) :: utf8DecodeIgnoreAux f r
        else utf8DecodeIgnoreAux f bs
      | _ => utf8DecodeIgnoreAux f bs
    else utf8DecodeIgnoreAux f bs

/-- Total decode of a byte list under `errors="ignore"`. -/
def utf8DecodeIgnore (bs : List Nat) : List Char :=
  utf8DecodeIgnoreAux bs.length bs

/-- Strict UTF-8 decoding: `none` at the first invalid sequence (what
`read_text` without `errors="ignore"` would raise as a decode error). -/
def utf8DecodeStrictAux : Nat → List Nat → Option (List Char)
  | 0, [] => some []
  | 0, _ :: _ => none
  | _, [] => some []
  | f + 1, b :: bs =>
    if b < 0x80 then
      (utf8DecodeStrictAux f bs).map (Char.ofNat b :: ·)
    else if 0xC2 ≤ b && b ≤ 0xDF then
      match bs with
      | b2 :: r =>
        if isContB b2 then
          (utf8DecodeStrictAux f r).map
            (Char.ofNat ((b - 0xC0) * 64 + (b2 - 0x80)) :: ·)
        else none
      | [] => none
    else if 0xE0 ≤ b && b ≤ 0xEF then
      match bs with
      | b2 :: b3 :: r =>
        if isSnd3Ok b b2 && isContB b3 then
          (utf8DecodeStrictAux f r).map
            (Char.ofNat ((b - 0xE0) * 4096 + (b2 - 0x80) * 64 + (b3 - 0x80)) :: ·)
        else none
      | _ => none
    else if 0xF0 ≤ b && b ≤ 0xF4 then
      match bs with
      | b2 :: b3 :: b4 :: r =>
        if isSnd4Ok b b2 && isContB b3 && isContB b4 then
          (utf8DecodeStrictAux f r).map
            (Char.ofNat ((b - 0xF0) * 262144 + (b2 - 0x80) * 4096 +
              (b3 - 0x80) * 64 + (b4 - 0x80)) :: ·)
        else none
      | _ => none
    else none

/-- Strict decode of a byte list. -/
def utf8DecodeStrict (bs : List Nat) : Option (List Char) :=
  utf8DecodeStrictAux bs.length bs

/-- `Path.read_text` on a file's bytes, parametrised by whether the
`errors="ignore"` handler is active (the module always passes it). -/
def read_text (ignoreErrors : Bool) (bs : List Nat) : Option (List Char) :=
  if ignoreErrors then some (utf8DecodeIgnore bs) else utf8DecodeStrict bs

/-! ## Collecting, de-duplicating and joining prototypes -/

/-- The de-duplication loop of `_load_decls_from_header`:
`seen, uniq = set(), []` followed by
`for p in protos_all: if p not in seen: seen.add(p); uniq.append(p)`. -/
def dedupScan (seen uniq : List (List Char)) :
    List (List Char) → List (List Char)
  | [] => uniq
  | p :: ps =>
    if p ∈ seen then dedupScan seen uniq ps
    else dedupScan (p :: seen) (uniq ++ [p]) ps

/-- Python `"\n".join(pieces)`. -/
def joinNl : List (List Char) → List Char
  | [] => []
  | [x] => x
  | x :: y :: rest => x ++ '\n' :: joinNl (y :: rest)

/-- `"\n".join(uniq) + ("\n" if uniq else "")`. -/
def joinDecls (uniq : List (List Char)) : List Char :=
  joinNl uniq ++ (if uniq = [] then [] else ['\n'])

/-- The filesystem the extractor reads from: a file's bytes per path, or
`none` when the path does not exist. -/
def FileSys : Type := String → Option (List Nat)

/-- The per-path accumulation loop of `_load_decls_from_header`: paths that
do not exist are skipped (`if not path.exists(): continue`); an existing
path contributes `extractProtos` of its decoded text, appended in path
order. -/
def protosFromPaths (win : Bool) (fs : FileSys) (paths : List String) :
    List (List Char) :=
  paths.foldl
    (fun acc p =>
      match fs p with
      | none => acc
      | some bytes => acc ++ extractProtos win (utf8DecodeIgnore bytes))
    []

/-- The collected, de-duplicated prototype list for a path list. -/
def uniqProtos (win : Bool) (fs : FileSys) (paths : List String) :
    List (List Char) :=
  dedupScan [] [] (protosFromPaths win fs paths)

/-- `_HEADER_DEFAULTS`: the three header names under each of the two base
directories (the concrete directory roots are runtime-dependent; the six
path strings are symbolic here and only their identity matters). -/
def headerDefaultPaths : List String :=
  ["libraries/epanet2.h", "libraries/epanet2_2.h", "libraries/epanetmsx.h",
   "parent/libraries/epanet2.h", "parent/libraries/epanet2_2.h",
   "parent/libraries/epanetmsx.h"]

/-- `_load_decls_from_header(header_path)`: a single caller-supplied header
path, or the default list. -/
def load_decls_from_header (win : Bool) (fs : FileSys)
    (headerPath : Option String) : List Char :=
  let paths := match headerPath with
    | some p => [p]
    | none => headerDefaultPaths
  joinDecls (uniqProtos win fs paths)

/-! ## The declaration registry `_ensure_cdef` / `get_cdef_decls`

The module-level mutable globals `_CDEF_DONE`, `_CDEF_DECLS` and the
accumulated `ffi.cdef(...)` compilations become an explicit state record.
The reentrant lock `_CDEF_LOCK` and the inner re-check of `_CDEF_DONE`
serialise concurrent builders; in this sequential embedding the
double-checked flag collapses to a single test. -/

structure RegState where
  cdefDone : Bool
  cdefDecls : Option (List Char)
  ffiCdefLog : List (List Char)
deriving DecidableEq

/-- Module import state: `_CDEF_DONE = False`, `_CDEF_DECLS = None`, no
compilation performed. -/
def initRegState : RegState :=
  { cdefDone := false, cdefDecls := none, ffiCdefLog := [] }

/-- `_MANUAL_CDEF_PREFIX`, the opaque project-handle typedef. -/
def manualCdefTypedef : List Char := "typedef void *EN_Project;\n".toList

/-- The manually authored `MSXstep` prototype chosen by platform in
`_ensure_cdef`. -/
def msxstepManualProto (win : Bool) : List Char :=
  if win then "int MSXstep(double *t, double *tleft);\n".toList
  else "int MSXstep(double *t, long *tleft);\n".toList

/-- Python `str.splitlines()` for text whose only line break is `\n` (the
only break the joined declaration text can contain): no trailing empty
element. -/
def splitlinesNl (fuel : Nat) : List Char → List (List Char)
  | [] => []
  | l =>
    match fuel with
    | 0 => [l]
    | f + 1 =>
      let r := takeRun (· != '\n') l
      match r.2 with
      | [] => [r.1]
      | _ :: rest => r.1 :: splitlinesNl f rest

/-- Python substring containment `needle in hay`. -/
def containsSub (needle : List Char) : List Char → Bool
  | [] => needle = []
  | c :: t => (c :: t).take needle.length = needle || containsSub needle t

/-- The `MSXstep` line filter of `_ensure_cdef`:
`"\n".join(line for line in decls.splitlines() if "MSXstep" not in line)`
followed by `+ ("\n" if decls else "")` (the guard tests the original,
unfiltered text). -/
def removeMSXstepLines (decls : List Char) : List Char :=
  joinNl
    ((splitlinesNl decls.length decls).filter
      (fun line => !containsSub "MSXstep".toList line)) ++
    (if decls = [] then [] else ['\n'])

/-- The declaration text `_ensure_cdef` assembles on its building call:
manual typedef, then the platform-conditional `MSXstep` prototype, then the
auto-extracted declarations with every `MSXstep` line discarded. -/
def buildDecls (win : Bool) (fs : FileSys) (hp : Option String) : List Char :=
  manualCdefTypedef ++ msxstepManualProto win ++
    removeMSXstepLines (load_decls_from_header win fs hp)

/-- `_ensure_cdef(header_path)`: a no-op once `_CDEF_DONE` is set;
otherwise assembles the declaration text, compiles it via `ffi.cdef`
(logged), stores it in `_CDEF_DECLS` and sets the flag. -/
def ensure_cdef (win : Bool) (fs : FileSys) (hp : Option String)
    (s : RegState) : RegState :=
  if s.cdefDone then s
  else
    let d := buildDecls win fs hp
    { cdefDone := true, cdefDecls := some d, ffiCdefLog := s.ffiCdefLog ++ [d] }

/-- `get_cdef_decls()`: ensures the registry is built (with no caller
header) and returns `_CDEF_DECLS`. -/
def get_cdef_decls (win : Bool) (fs : FileSys) (s : RegState) :
    RegState × Option (List Char) :=
  let s2 := ensure_cdef win fs none s
  (s2, s2.cdefDecls)

/-! ## The fixed-capacity byte buffer `_Buffer` -/

/-- The value written through the buffer's accessor: Python `bytes` or
`bytearray` pass through as bytes, anything else goes through
`str(b).encode("utf-8")`. -/
inductive BufInput where
  | bytes (b : List Nat)
  | text (s : List Char)
deriving DecidableEq

/-- One character's UTF-8 encoding. -/
def utf8EncodeChar (c : Char) : List Nat :=
  let n := c.toNat
  if n < 0x80 then [n]
  else if n < 0x800 then [0xC0 + n / 64, 0x80 + n % 64]
  else if n < 0x10000 then
    [0xE0 + n / 4096, 0x80 + (n / 64) % 64, 0x80 + n % 64]
  else
    [0xF0 + n / 262144, 0x80 + (n / 4096) % 64, 0x80 + (n / 64) % 64,
     0x80 + n % 64]

/-- `str.encode("utf-8")`. -/
def utf8Encode (s : List Char) : List Nat := s.flatMap utf8EncodeChar

/-- The encoding branch at the top of `_Buffer.value`'s setter. -/
def encodeBufInput : BufInput → List Nat
  | .bytes b => b
  | .text s => utf8Encode s

/-- `_Buffer`: the capacity `n` and the `n` bytes of the foreign character
array `ffi.new(f"char[{n}]")`. -/
structure CBuffer where
  n : Nat
  mem : List Nat
deriving DecidableEq

/-- `create_string_buffer(n)` / `_Buffer.__init__`: `ffi.new` zero-fills
the array. -/
def create_string_buffer (n : Nat) : CBuffer :=
  { n := n, mem := List.replicate n 0 }

/-- The setter of `_Buffer.value`: encode, reject when the encoded length
would leave no room for the terminating zero byte (`if n >= self.n: raise
ValueError("buffer too small")`, raised before `ffi.memmove` runs, so the
memory is untouched), otherwise copy the bytes and set the terminator.
Returns the buffer after the call together with the raised error, if
any. -/
def bufferWrite (buf : CBuffer) (v : BufInput) : CBuffer × Option String :=
  let b := encodeBufInput v
  if b.length ≥ buf.n then (buf, some "buffer too small")
  else
    ({ buf with mem := b ++ 0 :: buf.mem.drop (b.length + 1) }, none)

/-- The getter of `_Buffer.value`: `ffi.string(self.ptr)`, the content up
to the first zero byte. -/
def bufferValue (buf : CBuffer) : List Nat :=
  buf.mem.takeWhile (· != 0)

/-! ## The symbol-resolving library proxy `_LibProxy` and `cdll` -/

/-- First-match association lookup (the read side of the Python dict
caches; every key is inserted at most once, so first match is the
dict lookup). -/
def lookupAssoc {α β : Type} [DecidableEq α] (l : List (α × β)) (k : α) :
    Option β :=
  match l with
  | [] => none
  | (k2, v) :: rest => if k2 = k then some v else lookupAssoc rest k

/-- The alternate-name bridging block of `_LibProxy.__getattr__`: the four
independent `if` tests, appending in source order. -/
def altNames (name : List Char) : List (List Char) :=
  (if name.take 3 = ['E', 'N', '_'] then [['E', 'N'] ++ name.drop 3] else [])
    ++ (if name.take 2 = ['E', 'N'] && decide (2 < name.length) &&
          (name.drop 2).head? != some '_'
        then [['E', 'N', '_'] ++ name.drop 2] else [])
    ++ (if name.take 4 = ['M', 'S', 'X', '_']
        then [['M', 'S', 'X'] ++ name.drop 4] else [])
    ++ (if name.take 3 = ['M', 'S', 'X'] && decide (3 < name.length) &&
          (name.drop 3).head? != some '_'
        then [['M', 'S', 'X', '_'] ++ name.drop 3] else [])

/-- The symbols the dlopen'd library exports: name to an opaque callable
identity. -/
def SymTab : Type := List Char → Option Nat

/-- Outcome of one `__getattr__` call: the returned callable or the raised
`AttributeError` (carrying the requested name), the symbol cache after the
call, and how many symbol probes (`getattr(self._lib, ·)` attempts) the
call performed. -/
structure LookupOutcome where
  result : Except (List Char) Nat
  cache : List (List Char × Nat)
  probes : Nat
deriving Repr

/-- The `for alt in alt_names` loop of `_LibProxy.__getattr__`: each
alternate costs one probe; the first hit is cached under the originally
requested name; exhaustion raises `AttributeError(name)`. -/
def tryAlts (tab : SymTab) (cache : List (List Char × Nat))
    (name : List Char) (probes : Nat) : List (List Char) → LookupOutcome
  | [] => { result := .error name, cache := cache, probes := probes }
  | a :: rest =>
    match tab a with
    | some c =>
      { result := .ok c, cache := cache ++ [(name, c)], probes := probes + 1 }
    | none => tryAlts tab cache name (probes + 1) rest

/-- `_LibProxy.__getattr__(name)`: cache hit short-circuits; otherwise the
exact name is probed first, then the alternates in order. -/
def proxyGetattr (tab : SymTab) (cache : List (List Char × Nat))
    (name : List Char) : LookupOutcome :=
  match lookupAssoc cache name with
  | some fn => { result := .ok fn, cache := cache, probes := 0 }
  | none =>
    match tab name with
    | some c =>
      { result := .ok c, cache := cache ++ [(name, c)], probes := 1 }
    | none => tryAlts tab cache name 1 (altNames name)

/-- Process-wide library-loading state: every `ffi.dlopen` performed, plus
the declaration-registry state that `_LibProxy.__init__` touches through
`_ensure_cdef`. -/
structure LoadState where
  dlopenLog : List String
  reg : RegState
deriving DecidableEq

/-- Module import state: nothing loaded, registry unbuilt. -/
def initLoadState : LoadState := { dlopenLog := [], reg := initRegState }

/-- A `_LibProxy` instance: its object identity (fresh per construction),
the path it dlopen'd, and its per-instance symbol cache (`self._cache =
{}` on construction). -/
structure ProxyObj where
  objId : Nat
  libpath : String
  cache : List (List Char × Nat)
deriving DecidableEq

/-- `_LibProxy.__init__(libpath, header_path)`: runs `_ensure_cdef`, then
dlopens the path — on every construction, with no path lookup before it —
and starts an empty symbol cache.  The fresh object identity is the dlopen
count. -/
def libProxyInit (win : Bool) (fs : FileSys) (path : String)
    (hp : Option String) (st : LoadState) : ProxyObj × LoadState :=
  let reg2 := ensure_cdef win fs hp st.reg
  ({ objId := st.dlopenLog.length, libpath := path, cache := [] },
   { dlopenLog := st.dlopenLog ++ [path], reg := reg2 })

/-- `cdll.LoadLibrary(path, header_path=None)`: constructs a new
`_LibProxy` — the class body contains no cache of any kind. -/
def cdll_LoadLibrary (win : Bool) (fs : FileSys) (path : String)
    (hp : Option String) (st : LoadState) : ProxyObj × LoadState :=
  libProxyInit win fs path hp st

/-- The state of `epanetapi.py`'s module-level `_LIB_CACHE` dict together
with the loading state beneath it. -/
structure ApiState where
  libCache : List (String × ProxyObj)
  load : LoadState
deriving DecidableEq

/-- Module import state of `epanetapi.py`: `_LIB_CACHE = {}`. -/
def initApiState : ApiState := { libCache := [], load := initLoadState }

/-- `epanetapi._load_library(path_str)`: return the cached proxy for the
path when present, otherwise load through `cdll.LoadLibrary` and cache the
new proxy under the path. -/
def load_library (win : Bool) (fs : FileSys) (pathStr : String)
    (st : ApiState) : ProxyObj × ApiState :=
  match lookupAssoc st.libCache pathStr with
  | some lib => (lib, st)
  | none =>
    let r := cdll_LoadLibrary win fs pathStr none st.load
    (r.1, { libCache := st.libCache ++ [(pathStr, r.1)], load := r.2 })

/-! ## The scalar factories `c_int`, `c_long`, `c_float`, `c_double` -/

/-- A Python number: `int` or `float`.  Exact rationals stand in for host
floats; no operation used here rounds. -/
inductive PyNum where
  | vint (n : ℤ)
  | vfloat (q : ℚ)
deriving DecidableEq

/-- Python `int(x)`: identity on ints, truncation toward zero on floats. -/
def pyIntCast : PyNum → PyNum
  | .vint n => .vint n
  | .vfloat q => .vint (if q ≥ 0 then ⌊q⌋ else ⌈q⌉)

/-- Python `float(x)`. -/
def pyFloatCast : PyNum → PyNum
  | .vint n => .vfloat (n : ℚ)
  | .vfloat q => .vfloat q

/-- `_Ptr`: the declared scalar C type and the one-element foreign cell
`ffi.new(f"{c_type} *")` behind it.  The cell itself is cffi memory,
outside this repository; it is modelled as exact value storage (the spec's
"one native-typed value" presented through a get/set accessor), which the
in-range inputs used here never round. -/
structure CPtr where
  c_type : String
  stored : PyNum
deriving DecidableEq

/-- Zero initialisation performed by `ffi.new`. -/
def zeroOf (t : String) : PyNum :=
  if t = "int" || t = "long" then .vint 0 else .vfloat 0

/-- `_Ptr.__init__(c_type)`. -/
def ptrInit (t : String) : CPtr := { c_type := t, stored := zeroOf t }

/-- The getter of `_Ptr.value`: `self.ptr[0]`. -/
def ptrGetValue (p : CPtr) : PyNum := p.stored

/-- The setter of `_Ptr.value`: `self.ptr[0] = v`. -/
def ptrSetValue (p : CPtr) (v : PyNum) : CPtr := { p with stored := v }

/-- What a scalar factory call returns: a `_Ptr` memory cell, or a plain
Python number with no foreign memory behind it. -/
inductive ScalarCallResult where
  | cell (p : CPtr)
  | plain (v : PyNum)
deriving DecidableEq

/-- `_CScalarType`: the C type name and the plain host cast. -/
structure CScalarType where
  ctype : String
  pycast : PyNum → PyNum

/-- `_CScalarType.__call__(value=None)`: no argument gives a fresh `_Ptr`;
a value gives only `self.pycast(value)`. -/
def scalarCall (t : CScalarType) (value : Option PyNum) : ScalarCallResult :=
  match value with
  | none => .cell (ptrInit t.ctype)
  | some v => .plain (t.pycast v)

/-- `c_int = _CScalarType("int", int)`. -/
def c_int : CScalarType := { ctype := "int", pycast := pyIntCast }

/-- `c_long = _CScalarType("long", int)`. -/
def c_long : CScalarType := { ctype := "long", pycast := pyIntCast }

/-- `c_float = _CScalarType("float", float)`. -/
def c_float : CScalarType := { ctype := "float", pycast := pyFloatCast }

/-- `c_double = _CScalarType("double", float)`. -/
def c_double : CScalarType := { ctype := "double", pycast := pyFloatCast }

/-- What `byref` hands back for an argument. -/
inductive ByrefResult where
  | memRef (p : CPtr)
  | raw (v : PyNum)
deriving DecidableEq

/-- `byref(obj)` restricted to scalar-factory results: a `_Ptr` instance
is in `byref`'s isinstance list, so its foreign cell is returned; a plain
number matches neither the isinstance test nor `hasattr(obj, "ptr")` and
is returned unchanged. -/
def byrefScalar : ScalarCallResult → ByrefResult
  | .cell p => .memRef p
  | .plain v => .raw v

/-! ## Specification-side definitions

These follow the spec's words rather than the source, for refinement
comparisons only. -/

/-- De-duplication by exact text preserving first-occurrence order, stated
the spec's way: keep each element's first occurrence, drop the later
ones. -/
def firstOccur : List (List Char) → List (List Char)
  | [] => []
  | x :: xs => x :: firstOccur (xs.filter (· ≠ x))
termination_by l => l.length
decreasing_by
  simp only [List.length_cons]
  exact Nat.lt_succ_of_le (List.length_filter_le _ _)

/-! ## Auxiliary readings of concrete text (used to state counterexamples) -/

/-- Suffix after the last occurrence of a character, when present. -/
def afterLastOcc (ch : Char) : List Char → Option (List Char)
  | [] => none
  | c :: cs =>
    match afterLastOcc ch cs with
    | some s => some s
    | none => if c = ch then some cs else none

/-- The type token of a prototype's last parameter read off the text:
what follows the last comma, with whitespace skipped, up to the end of the
first word (for `"... , double *tleft);"` this reads `"double"`). -/
def lastParamPointeeToken (proto : List Char) : List Char :=
  match afterLastOcc ',' proto with
  | some rest => (takeRun isWordC (takeRun isSpaceC rest).2).1
  | none => []

/-! ## Concrete instances used by the claim theorems and witnesses -/

/-- A symbol table exporting only the legacy-convention name
`ENaddcontrol` (as an opaque callable identity 7). -/
def tabAddcontrol : SymTab :=
  fun nm => if nm = "ENaddcontrol".toList then some 7 else none

/-- A three-file filesystem for the extractor scenarios: one header with a
whitespace-variant duplicate followed by a distinct prototype, and two
headers sharing a prototype. -/
def fsScenario : FileSys := fun p =>
  if p = "one.h" then
    some (utf8Encode
      "int ENopen(char *f1);\nint  ENopen(char  *f1);\nint ENclose(void);\n".toList)
  else if p = "a.h" then
    some (utf8Encode "int ENopen(char *f1);\n".toList)
  else if p = "b.h" then
    some (utf8Encode "int ENopen(char *f1);\nint ENclose(void);\n".toList)
  else none

/-! ## Normalized-prototype shape predicates

Used to state, for every matched prototype, what the per-match body of the
extraction loop guarantees: internal whitespace collapsed to single spaces
and no whitespace at either end. -/

/-- The collapsed, stripped core the per-match body computes before the
`int`-prefix decision (the `let p` of `normalizeProto`). -/
def collapseStrip (m : List Char) : List Char :=
  collapseAllWs (pyStrip m).length (pyStrip m)

/-- Every whitespace character of the text is a plain space. -/
def allWsSingleSpace (l : List Char) : Bool :=
  l.all (fun c => !isSpaceC c || c = ' ')

/-- No two adjacent whitespace characters. -/
def noAdjacentSpaces : List Char → Bool
  | c1 :: c2 :: rest => (!(isSpaceC c1 && isSpaceC c2)) && noAdjacentSpaces (c2 :: rest)
  | _ => true

/-- The first character, when present, is not whitespace. -/
def headNonSpace (l : List Char) : Bool :=
  match l.head? with
  | none => true
  | some c => !isSpaceC c

/-- The last character, when present, is not whitespace. -/
def lastNonSpace (l : List Char) : Bool :=
  match l.getLast? with
  | none => true
  | some c => !isSpaceC c

/-! ## Helper lemmas -/

theorem ensure_cdef_of_done (win : Bool) (fs : FileSys) (h : Option String)
    (s : RegState) (hs : s.cdefDone = true) : ensure_cdef win fs h s = s := by
  simp [ensure_cdef, hs]

theorem foldl_ensure_cdef_done (win : Bool) (fs : FileSys) (s : RegState)
    (hs : s.cdefDone = true) (hps : List (Option String)) :
    hps.foldl (fun t h => ensure_cdef win fs h t) s = s := by
  induction hps with
  | nil => rfl
  | cons h t ih => simpa [ensure_cdef_of_done win fs h s hs] using ih

theorem lookupAssoc_append_right {α β : Type} [DecidableEq α]
    (l : List (α × β)) (k : α) (v : β) (hmiss : lookupAssoc l k = none) :
    lookupAssoc (l ++ [(k, v)]) k = some v := by
  induction l with
  | nil => simp [lookupAssoc]
  | cons kv rest ih =>
    by_cases hk : kv.1 = k
    · simp [lookupAssoc, hk] at hmiss
    · simp only [lookupAssoc, hk, if_neg] at hmiss ⊢
      exact ih hmiss

theorem takeWhile_append_zero (b rest : List Nat) (hb : ∀ x ∈ b, x ≠ 0) :
    (b ++ 0 :: rest).takeWhile (· != 0) = b := by
  induction b with
  | nil => simp
  | cons x xs ih =>
    have hx : x ≠ 0 := hb x (by simp)
    simp only [List.cons_append, List.takeWhile_cons, bne_iff_ne, ne_eq, hx,
      not_false_eq_true, if_true]
    exact congrArg (x :: ·) (ih fun y hy => hb y (by simp [hy]))

theorem containsSub_nil_needle (l : List Char) : containsSub [] l = true := by
  cases l <;> simp [containsSub]

theorem containsSub_cons_nl (needle : List Char)
    (hn : '\n' ∉ needle) (hne : needle ≠ []) (b : List Char) :
    containsSub needle ('\n' :: b) = containsSub needle b := by
  cases needle with
  | nil => exact absurd rfl hne
  | cons n0 ns =>
    have hno : n0 ≠ '\n' := by
      rintro rfl; exact hn (List.mem_cons_self _ _)
    have hne2 : '\n' :: b.take ns.length ≠ n0 :: ns := by
      intro hEq
      injection hEq with h1 _
      exact hno h1.symm
    simp only [containsSub, List.length_cons, List.take_succ_cons]
    simp [hne2]

theorem containsSub_append_nl (needle a b : List Char)
    (hn : '\n' ∉ needle) :
    containsSub needle (a ++ '\n' :: b) =
      (containsSub needle a || containsSub needle b) := by
  by_cases hnil : needle = []
  · subst hnil
    simp [containsSub_nil_needle]
  · induction a with
    | nil =>
      rw [List.nil_append, containsSub_cons_nl needle hn hnil b]
      have : containsSub needle [] = false := by
        cases needle with
        | nil => exact absurd rfl hnil
        | cons n0 ns => simp [containsSub]
      rw [this, Bool.false_or]
    | cons c cs ih =>
      simp only [List.cons_append, containsSub, List.append_eq, ih]
      by_cases hlen : needle.length ≤ (c :: cs).length
      · have htake : ((c :: cs) ++ '\n' :: b).take needle.length =
            (c :: cs).take needle.length :=
          List.take_append_of_le_length hlen
        simp only [List.cons_append] at htake
        simp only [htake, Bool.or_assoc]
      · have hlt : (c :: cs).length < needle.length := Nat.lt_of_not_le hlen
        have h1 : ((c :: cs) ++ '\n' :: b).take needle.length ≠ needle := by
          intro hEq
          apply hn
          rw [← hEq, List.take_append_eq_append_take,
            List.take_of_length_le (Nat.le_of_lt hlt)]
          cases hd : needle.length - (c :: cs).length with
          | zero => omega
          | succ m => simp [List.take_succ_cons]
        have h2 : (c :: cs).take needle.length ≠ needle := by
          rw [List.take_of_length_le (Nat.le_of_lt hlt)]
          intro hEq
          rw [hEq] at hlt
          omega
        simp only [List.cons_append] at h1
        simp [h1, h2, Bool.or_assoc]

theorem containsSub_empty_right (needle : List Char) (hne : needle ≠ []) :
    containsSub needle [] = false := by
  cases needle with
  | nil => exact absurd rfl hne
  | cons n0 ns => simp [containsSub]

theorem containsSub_joinNl_nl (needle : List Char) (hn : '\n' ∉ needle)
    (hne : needle ≠ []) (ls : List (List Char))
    (h : ∀ p ∈ ls, containsSub needle p = false) :
    containsSub needle (joinNl ls ++ ['\n']) = false := by
  induction ls with
  | nil =>
    show containsSub needle ('\n' :: []) = false
    rw [containsSub_cons_nl needle hn hne []]
    exact containsSub_empty_right needle hne
  | cons p ps ih =>
    have hp : containsSub needle p = false := h p (by simp)
    have hps : ∀ q ∈ ps, containsSub needle q = false :=
      fun q hq => h q (by simp [hq])
    cases ps with
    | nil =>
      have hj : joinNl [p] ++ ['\n'] = p ++ '\n' :: [] := by simp [joinNl]
      rw [hj, containsSub_append_nl needle p [] hn, hp,
        containsSub_empty_right needle hne]
      rfl
    | cons q qs =>
      have hj : joinNl (p :: q :: qs) ++ ['\n'] =
          p ++ '\n' :: (joinNl (q :: qs) ++ ['\n']) := by simp [joinNl]
      rw [hj, containsSub_append_nl needle p _ hn, hp, ih hps]
      rfl

/-- `dedupScan` without the output accumulator: what the loop appends from
a given `seen` set onward. -/
def firstOccurFrom (seen : List (List Char)) :
    List (List Char) → List (List Char)
  | [] => []
  | x :: xs =>
    if x ∈ seen then firstOccurFrom seen xs
    else x :: firstOccurFrom (x :: seen) xs

theorem firstOccurFrom_congr (l : List (List Char)) :
    ∀ seen seen2 : List (List Char), (∀ x, x ∈ seen ↔ x ∈ seen2) →
      firstOccurFrom seen l = firstOccurFrom seen2 l := by
  induction l with
  | nil => intro seen seen2 _; rfl
  | cons x xs ih =>
    intro seen seen2 hmem
    by_cases hx : x ∈ seen
    · simp only [firstOccurFrom, if_pos hx, if_pos ((hmem x).mp hx)]
      exact ih seen seen2 hmem
    · have hx2 : x ∉ seen2 := fun h => hx ((hmem x).mpr h)
      simp only [firstOccurFrom, if_neg hx, if_neg hx2]
      refine congrArg (x :: ·) (ih _ _ ?_)
      intro y
      simp [hmem y]

theorem dedupScan_eq_append (l : List (List Char)) :
    ∀ seen uniq, dedupScan seen uniq l = uniq ++ firstOccurFrom seen l := by
  induction l with
  | nil => intro seen uniq; simp [dedupScan, firstOccurFrom]
  | cons x xs ih =>
    intro seen uniq
    by_cases hx : x ∈ seen
    · simp [dedupScan, firstOccurFrom, hx, ih]
    · simp [dedupScan, firstOccurFrom, hx, ih]

theorem firstOccurFrom_filter (l : List (List Char)) :
    ∀ (seen : List (List Char)) (x : List Char),
      firstOccurFrom (x :: seen) l = firstOccurFrom seen (l.filter (· ≠ x)) := by
  induction l with
  | nil => intro seen x; rfl
  | cons y ys ih =>
    intro seen x
    by_cases hyx : y = x
    · subst hyx
      have hfy : (y :: ys).filter (· ≠ y) = ys.filter (· ≠ y) := by simp
      rw [hfy, ← ih seen y]
      simp [firstOccurFrom]
    · have hfy : (y :: ys).filter (· ≠ x) = y :: ys.filter (· ≠ x) := by
        simp [hyx]
      rw [hfy]
      by_cases hys : y ∈ seen
      · have h1 : y ∈ x :: seen := by simp [hys]
        rw [firstOccurFrom, if_pos h1, firstOccurFrom, if_pos hys]
        exact ih seen x
      · have h1 : y ∉ x :: seen := by simp [hyx, hys]
        rw [firstOccurFrom, if_neg h1, firstOccurFrom, if_neg hys]
        refine congrArg (y :: ·) ?_
        calc firstOccurFrom (y :: x :: seen) ys
            = firstOccurFrom (x :: y :: seen) ys := by
              refine firstOccurFrom_congr ys _ _ ?_
              intro z; constructor <;> (intro h; simp at h ⊢; tauto)
          _ = firstOccurFrom (y :: seen) (ys.filter (· ≠ x)) := ih (y :: seen) x

theorem firstOccurFrom_nil_eq (l : List (List Char)) :
    firstOccurFrom [] l = firstOccur l := by
  induction l using firstOccur.induct with
  | case1 => rw [firstOccur]; rfl
  | case2 x xs ih =>
    rw [firstOccurFrom, if_neg (List.not_mem_nil x), firstOccur,
      firstOccurFrom_filter xs [] x, ih]

theorem dedupScan_eq_firstOccur (l : List (List Char)) :
    dedupScan [] [] l = firstOccur l := by
  rw [dedupScan_eq_append, List.nil_append, firstOccurFrom_nil_eq]

/-! ## Shape of every normalized prototype (for C7) -/

theorem takeRun_snd_length (p : Char → Bool) (l : List Char) :
    (takeRun p l).2.length ≤ l.length := by
  conv_rhs => rw [← takeRun_append p l]
  simp

theorem takeRun_fst_all (p : Char → Bool) (l : List Char) :
    ∀ x ∈ (takeRun p l).1, p x = true := by
  induction l with
  | nil => intro x hx; simp [takeRun] at hx
  | cons c cs ih =>
    intro x hx
    by_cases hc : p c = true
    · simp only [takeRun, hc, if_true] at hx
      rcases List.mem_cons.mp hx with rfl | hx2
      · exact hc
      · exact ih x hx2
    · simp [takeRun, hc] at hx

theorem takeRun_snd_head (p : Char → Bool) (l : List Char) (c : Char)
    (cs : List Char) (h : (takeRun p l).2 = c :: cs) : p c = false := by
  induction l with
  | nil => simp [takeRun] at h
  | cons d ds ih =>
    by_cases hd : p d = true
    · rw [show (takeRun p (d :: ds)).2 = (takeRun p ds).2 by
        simp [takeRun, hd]] at h
      exact ih h
    · rw [show (takeRun p (d :: ds)).2 = d :: ds by simp [takeRun, hd]] at h
      injection h with h1 _
      cases hpd : p d with
      | false => rw [← h1]; exact hpd
      | true => exact absurd hpd hd

theorem takeRun_snd_getLast (p : Char → Bool) (l : List Char)
    (h : (takeRun p l).2 ≠ []) : (takeRun p l).2.getLast? = l.getLast? := by
  induction l with
  | nil => simp [takeRun] at h
  | cons d ds ih =>
    by_cases hd : p d = true
    · have heq : (takeRun p (d :: ds)).2 = (takeRun p ds).2 := by
        simp [takeRun, hd]
      rw [heq] at h ⊢
      have hds : ds ≠ [] := by
        intro hnil
        rw [hnil] at h
        simp [takeRun] at h
      rw [ih h]
      cases ds with
      | nil => exact absurd rfl hds
      | cons e es => exact List.getLast?_cons_cons.symm
    · rw [show (takeRun p (d :: ds)).2 = d :: ds by simp [takeRun, hd]]

theorem collapseAllWs_ne_nil (fuel : Nat) (l : List Char) (h : l ≠ []) :
    collapseAllWs fuel l ≠ [] := by
  cases l with
  | nil => exact absurd rfl h
  | cons c rest =>
    cases fuel with
    | zero => simp [collapseAllWs]
    | succ f => by_cases hc : isSpaceC c = true <;> simp [collapseAllWs, hc]

theorem collapseAllWs_headNonSpace (fuel : Nat) (l : List Char)
    (h : headNonSpace l = true) :
    headNonSpace (collapseAllWs fuel l) = true := by
  cases l with
  | nil => cases fuel <;> simp [collapseAllWs, headNonSpace]
  | cons c rest =>
    have hc : isSpaceC c = false := by simpa [headNonSpace] using h
    cases fuel with
    | zero => simpa [collapseAllWs, headNonSpace] using h
    | succ f => simp [collapseAllWs, hc, headNonSpace]

theorem collapseAllWs_allWs (fuel : Nat) :
    ∀ l : List Char, l.length ≤ fuel →
      allWsSingleSpace (collapseAllWs fuel l) = true := by
  induction fuel with
  | zero =>
    intro l hl
    have hnil : l = [] := List.length_eq_zero.mp (Nat.le_zero.mp hl)
    subst hnil
    rfl
  | succ f ih =>
    intro l hl
    cases l with
    | nil => rfl
    | cons c rest =>
      simp only [List.length_cons] at hl
      by_cases hc : isSpaceC c = true
      · have hlen : (takeRun isSpaceC rest).2.length ≤ f := by
          have h1 := takeRun_snd_length isSpaceC rest
          omega
        have hrec := ih _ hlen
        simp only [collapseAllWs, hc, if_true, allWsSingleSpace,
          List.all_cons, Bool.and_eq_true] at hrec ⊢
        exact ⟨by decide, hrec⟩
      · have hrec := ih rest (by omega)
        simp only [collapseAllWs, hc, if_false, allWsSingleSpace,
          List.all_cons, Bool.and_eq_true, Bool.false_eq_true] at hrec ⊢
        refine ⟨?_, hrec⟩
        simp [hc]

theorem collapseAllWs_noAdj (fuel : Nat) :
    ∀ l : List Char, l.length ≤ fuel →
      noAdjacentSpaces (collapseAllWs fuel l) = true := by
  induction fuel with
  | zero =>
    intro l hl
    have hnil : l = [] := List.length_eq_zero.mp (Nat.le_zero.mp hl)
    subst hnil
    rfl
  | succ f ih =>
    intro l hl
    cases l with
    | nil => rfl
    | cons c rest =>
      simp only [List.length_cons] at hl
      by_cases hc : isSpaceC c = true
      · have hlen : (takeRun isSpaceC rest).2.length ≤ f := by
          have h1 := takeRun_snd_length isSpaceC rest
          omega
        have hhead : headNonSpace (takeRun isSpaceC rest).2 = true := by
          cases hr : (takeRun isSpaceC rest).2 with
          | nil => rfl
          | cons d ds =>
            have := takeRun_snd_head isSpaceC rest d ds hr
            simp [headNonSpace, this]
        have hX := collapseAllWs_headNonSpace f _ hhead
        have hXadj := ih _ hlen
        simp only [collapseAllWs, hc, if_true]
        cases hXc : collapseAllWs f (takeRun isSpaceC rest).2 with
        | nil => rfl
        | cons d ds =>
          rw [hXc] at hX hXadj
          have hd : isSpaceC d = false := by simpa [headNonSpace] using hX
          rw [noAdjacentSpaces, hXadj, hd]
          decide
      · have hY := ih rest (by omega)
        simp only [collapseAllWs, hc, if_false, Bool.false_eq_true]
        cases hYc : collapseAllWs f rest with
        | nil => rfl
        | cons d ds =>
          rw [hYc] at hY
          have hc2 : isSpaceC c = false := by simpa using hc
          rw [noAdjacentSpaces, hY, hc2]
          simp

theorem collapseAllWs_lastNonSpace (fuel : Nat) :
    ∀ l : List Char, lastNonSpace l = true →
      lastNonSpace (collapseAllWs fuel l) = true := by
  induction fuel with
  | zero =>
    intro l h
    cases l with
    | nil => exact h
    | cons c rest => exact h
  | succ f ih =>
    intro l h
    cases l with
    | nil => rfl
    | cons c rest =>
      by_cases hc : isSpaceC c = true
      · cases hr : (takeRun isSpaceC rest).2 with
        | nil =>
          exfalso
          have hrest : (takeRun isSpaceC rest).1 = rest := by
            have happ := takeRun_append isSpaceC rest
            rw [hr] at happ
            simpa using happ
          cases hrest2 : rest with
          | nil =>
            rw [hrest2] at h
            simp [lastNonSpace, hc] at h
          | cons e es =>
            have hne : (e :: es : List Char) ≠ [] := by simp
            have hxeq := List.getLast?_eq_getLast_of_ne_nil hne
            have hxmem : (e :: es).getLast hne ∈ rest := by
              rw [hrest2]
              exact List.getLast_mem hne
            rw [← hrest] at hxmem
            have hxsp := takeRun_fst_all isSpaceC rest _ hxmem
            rw [hrest2] at h
            simp [lastNonSpace, List.getLast?_cons_cons, hxeq, hxsp] at h
        | cons d ds =>
          have hlast2 : lastNonSpace (takeRun isSpaceC rest).2 = true := by
            have hresne : rest ≠ [] := by
              intro hnil
              rw [hnil] at hr
              simp [takeRun] at hr
            have hgl := takeRun_snd_getLast isSpaceC rest (by rw [hr]; simp)
            have hcl : (c :: rest).getLast? = rest.getLast? := by
              cases rest with
              | nil => exact absurd rfl hresne
              | cons e es => exact List.getLast?_cons_cons
            rw [lastNonSpace, hgl, ← hcl]
            rw [lastNonSpace] at h
            exact h
          have hXlast := ih _ hlast2
          have hXne : collapseAllWs f (takeRun isSpaceC rest).2 ≠ [] :=
            collapseAllWs_ne_nil f _ (by rw [hr]; simp)
          simp only [collapseAllWs, hc, if_true]
          cases hXc : collapseAllWs f (takeRun isSpaceC rest).2 with
          | nil => exact absurd hXc hXne
          | cons y ys =>
            rw [hXc] at hXlast
            rw [lastNonSpace, List.getLast?_cons_cons]
            rw [lastNonSpace] at hXlast
            exact hXlast
      · simp only [collapseAllWs, hc, if_false, Bool.false_eq_true]
        cases rest with
        | nil =>
          simpa [collapseAllWs, lastNonSpace] using h
        | cons e es =>
          have hrest : lastNonSpace (e :: es) = true := by
            rw [lastNonSpace]
            rw [lastNonSpace, List.getLast?_cons_cons] at h
            exact h
          have hY := ih _ hrest
          have hYne : collapseAllWs f (e :: es) ≠ [] :=
            collapseAllWs_ne_nil f _ (by simp)
          cases hYc : collapseAllWs f (e :: es) with
          | nil => exact absurd hYc hYne
          | cons y ys =>
            rw [hYc] at hY
            rw [lastNonSpace, List.getLast?_cons_cons]
            rw [lastNonSpace] at hY
            exact hY

theorem pyStrip_headNonSpace (l : List Char) :
    headNonSpace (pyStrip l) = true := by
  unfold pyStrip headNonSpace
  rw [List.head?_reverse]
  cases hW : (takeRun isSpaceC ((takeRun isSpaceC l).2.reverse)).2 with
  | nil => rfl
  | cons w ws =>
    have h1 := takeRun_snd_getLast isSpaceC ((takeRun isSpaceC l).2.reverse)
      (by rw [hW]; simp)
    rw [hW] at h1
    rw [h1, List.getLast?_reverse]
    cases hU : (takeRun isSpaceC l).2 with
    | nil => rfl
    | cons u us =>
      have := takeRun_snd_head isSpaceC l u us hU
      simp [this]

theorem pyStrip_lastNonSpace (l : List Char) :
    lastNonSpace (pyStrip l) = true := by
  unfold pyStrip lastNonSpace
  rw [List.getLast?_reverse]
  cases hW : (takeRun isSpaceC ((takeRun isSpaceC l).2.reverse)).2 with
  | nil => rfl
  | cons w ws =>
    have := takeRun_snd_head isSpaceC ((takeRun isSpaceC l).2.reverse) w ws hW
    simp [this]

theorem protoNeedsInt_head (p : List Char) (h : protoNeedsInt p = true) :
    ∃ rest, p = 'E' :: rest ∨ p = 'M' :: rest := by
  unfold protoNeedsInt at h
  by_cases h2 : p.take 2 = ['E', 'N']
  · cases p with
    | nil => simp at h2
    | cons c cs =>
      rw [List.take_succ_cons] at h2
      injection h2 with hc _
      subst hc
      exact ⟨cs, Or.inl rfl⟩
  · rw [if_neg h2] at h
    by_cases h3 : p.take 3 = ['M', 'S', 'X']
    · cases p with
      | nil => simp at h3
      | cons c cs =>
        rw [List.take_succ_cons] at h3
        injection h3 with hc _
        subst hc
        exact ⟨cs, Or.inr rfl⟩
    · rw [if_neg h3] at h
      exact absurd h (by simp)

theorem normalizeProto_eq_ite (m : List Char) :
    normalizeProto m =
      if protoNeedsInt (collapseStrip m) then
        "int ".toList ++ collapseStrip m
      else collapseStrip m := rfl

theorem noAdj_int_front (c : Char) (rest : List Char)
    (hc : isSpaceC c = false) (h : noAdjacentSpaces (c :: rest) = true) :
    noAdjacentSpaces ('i' :: 'n' :: 't' :: ' ' :: c :: rest) = true := by
  rw [noAdjacentSpaces, noAdjacentSpaces, noAdjacentSpaces, noAdjacentSpaces,
    h, hc]
  decide

theorem normalizeProto_shape (m : List Char) :
    allWsSingleSpace (normalizeProto m) = true ∧
    noAdjacentSpaces (normalizeProto m) = true ∧
    headNonSpace (normalizeProto m) = true ∧
    lastNonSpace (normalizeProto m) = true := by
  have hp1 : allWsSingleSpace (collapseStrip m) = true :=
    collapseAllWs_allWs (pyStrip m).length (pyStrip m) (le_refl _)
  have hp2 : noAdjacentSpaces (collapseStrip m) = true :=
    collapseAllWs_noAdj (pyStrip m).length (pyStrip m) (le_refl _)
  have hp3 : headNonSpace (collapseStrip m) = true :=
    collapseAllWs_headNonSpace (pyStrip m).length (pyStrip m)
      (pyStrip_headNonSpace m)
  have hp4 : lastNonSpace (collapseStrip m) = true :=
    collapseAllWs_lastNonSpace (pyStrip m).length (pyStrip m)
      (pyStrip_lastNonSpace m)
  rw [normalizeProto_eq_ite]
  by_cases hint : protoNeedsInt (collapseStrip m) = true
  · rw [if_pos hint]
    obtain ⟨rest, hcase⟩ := protoNeedsInt_head _ hint
    have hchar : ∃ c, collapseStrip m = c :: rest ∧ isSpaceC c = false := by
      rcases hcase with hE | hM
      · exact ⟨'E', hE, by decide⟩
      · exact ⟨'M', hM, by decide⟩
    obtain ⟨c, hform, hcns⟩ := hchar
    rw [hform] at hp1 hp2 hp4 ⊢
    refine ⟨?_, noAdj_int_front c rest hcns hp2, rfl, ?_⟩
    · rw [allWsSingleSpace, List.all_append]
      rw [allWsSingleSpace] at hp1
      rw [hp1]
      decide
    · rw [lastNonSpace, List.getLast?_append_of_ne_nil _ (by simp)]
      rw [lastNonSpace] at hp4
      exact hp4
  · rw [if_neg hint]
    exact ⟨hp1, hp2, hp3, hp4⟩

/-! ## Claim theorems -/

/-- C1: the foreign-function declaration set is built exactly once per
process: across any number of sequential calls to the registry-build entry
point (`_ensure_cdef`, with arbitrary header arguments), only the first
call assembles and compiles the declaration text (exactly one `ffi.cdef`
compilation is on record), every later call is a no-op that leaves the
state of the first call intact, and the text returned by `get_cdef_decls`
after any such call sequence is the text the first call built. -/
theorem c1_registry_built_once (win : Bool) (fs : FileSys) (hp : Option String)
    (hps : List (Option String)) :
    (hp :: hps).foldl (fun t h => ensure_cdef win fs h t) initRegState =
      ensure_cdef win fs hp initRegState ∧
    ((hp :: hps).foldl (fun t h => ensure_cdef win fs h t) initRegState).ffiCdefLog =
      [buildDecls win fs hp] ∧
    (get_cdef_decls win fs
        ((hp :: hps).foldl (fun t h => ensure_cdef win fs h t) initRegState)).2 =
      some (buildDecls win fs hp) := by
  have h1 : ensure_cdef win fs hp initRegState =
      { cdefDone := true, cdefDecls := some (buildDecls win fs hp),
        ffiCdefLog := [buildDecls win fs hp] } := by
    simp [ensure_cdef, initRegState]
  have hdone : (ensure_cdef win fs hp initRegState).cdefDone = true := by
    rw [h1]
  have h2 : (hp :: hps).foldl (fun t h => ensure_cdef win fs h t) initRegState =
      ensure_cdef win fs hp initRegState := by
    rw [List.foldl_cons]
    exact foldl_ensure_cdef_done win fs _ hdone hps
  refine ⟨h2, ?_, ?_⟩
  · rw [h2, h1]
  · rw [h2]
    unfold get_cdef_decls
    rw [ensure_cdef_of_done win fs none _ hdone, h1]

/-- C2 counterexample: `cdll.LoadLibrary` is not cached by path — two
calls with the same path from the initial state return two distinct proxy
objects and dlopen the path twice, contradicting the claim that any two
calls return the same proxy and that the library is opened at most once. -/
theorem c2_counterexample_loadlibrary_not_cached :
    decide
      ((cdll_LoadLibrary false (fun _ => none) "libepanet2.so" none
          ((cdll_LoadLibrary false (fun _ => none) "libepanet2.so" none
            initLoadState).2)).1 =
        (cdll_LoadLibrary false (fun _ => none) "libepanet2.so" none
          initLoadState).1) = false ∧
    (cdll_LoadLibrary false (fun _ => none) "libepanet2.so" none
        initLoadState).1.objId = 0 ∧
    (cdll_LoadLibrary false (fun _ => none) "libepanet2.so" none
        ((cdll_LoadLibrary false (fun _ => none) "libepanet2.so" none
          initLoadState).2)).1.objId = 1 ∧
    (cdll_LoadLibrary false (fun _ => none) "libepanet2.so" none
        ((cdll_LoadLibrary false (fun _ => none) "libepanet2.so" none
          initLoadState).2)).2.dlopenLog =
      ["libepanet2.so", "libepanet2.so"] := by
  refine ⟨by decide, rfl, rfl, rfl⟩

/-- C2 amended: `cdll.LoadLibrary` itself constructs a fresh proxy and
dlopens on every call; the process-wide path-to-proxy cache lives one
level up, in `epanetapi._load_library`, which does return the same proxy
object for any two calls with the same path and performs no further
dlopen on the second call. -/
theorem c2_amended_path_cache_in_load_library (win : Bool) (fs : FileSys)
    (p : String) (st : ApiState) :
    (cdll_LoadLibrary win fs p none st.load).2.dlopenLog =
      st.load.dlopenLog ++ [p] ∧
    (load_library win fs p (load_library win fs p st).2).1 =
      (load_library win fs p st).1 ∧
    (load_library win fs p (load_library win fs p st).2).2 =
      (load_library win fs p st).2 := by
  refine ⟨rfl, ?_⟩
  cases hmiss : lookupAssoc st.libCache p with
  | some lib =>
    unfold load_library
    rw [hmiss]
    simp [hmiss]
  | none =>
    have hfound :
        lookupAssoc (st.libCache ++
          [(p, (cdll_LoadLibrary win fs p none st.load).1)]) p =
          some (cdll_LoadLibrary win fs p none st.load).1 :=
      lookupAssoc_append_right st.libCache p _ hmiss
    constructor
    · show (load_library win fs p (load_library win fs p st).2).1 =
        (load_library win fs p st).1
      unfold load_library
      rw [hmiss]
      simp only []
      rw [hfound]
    · unfold load_library
      rw [hmiss]
      simp only []
      rw [hfound]

/-- C3: symbol resolution on a library proxy tries the exact requested
name first; if absent it tries the convention-toggled alternates (for
`EN_`/`EN` and `MSX_`/`MSX` exactly as the claim states); the first
alternate found is cached under the originally requested name, and a
repeated lookup of a name whose first lookup succeeded returns the cached
callable with zero library probes. -/
theorem c3_symbol_resolution_order_and_cache :
    (∀ (tab : SymTab) (cache : List (List Char × Nat)) (name : List Char)
        (fn : Nat), lookupAssoc cache name = some fn →
        (proxyGetattr tab cache name).result = .ok fn ∧
        (proxyGetattr tab cache name).cache = cache ∧
        (proxyGetattr tab cache name).probes = 0) ∧
    (∀ (tab : SymTab) (cache : List (List Char × Nat)) (name : List Char)
        (c : Nat), lookupAssoc cache name = none → tab name = some c →
        (proxyGetattr tab cache name).result = .ok c ∧
        (proxyGetattr tab cache name).cache = cache ++ [(name, c)] ∧
        (proxyGetattr tab cache name).probes = 1) ∧
    altNames "EN_addcontrol".toList = ["ENaddcontrol".toList] ∧
    altNames "ENaddcontrol".toList = ["EN_addcontrol".toList] ∧
    altNames "MSX_setpattern".toList = ["MSXsetpattern".toList] ∧
    altNames "MSXsetpattern".toList = ["MSX_setpattern".toList] ∧
    (proxyGetattr tabAddcontrol [] "EN_addcontrol".toList).result = .ok 7 ∧
    (proxyGetattr tabAddcontrol [] "EN_addcontrol".toList).cache =
      [("EN_addcontrol".toList, 7)] ∧
    (proxyGetattr tabAddcontrol [("EN_addcontrol".toList, 7)]
        "EN_addcontrol".toList).result = .ok 7 ∧
    (proxyGetattr tabAddcontrol [("EN_addcontrol".toList, 7)]
        "EN_addcontrol".toList).probes = 0 := by
  refine ⟨?_, ?_, by decide, by decide, by decide, by decide, ?_, ?_, ?_, ?_⟩
  · intro tab cache name fn hhit
    unfold proxyGetattr
    rw [hhit]
    exact ⟨rfl, rfl, rfl⟩
  · intro tab cache name c hmiss hexact
    unfold proxyGetattr
    rw [hmiss, hexact]
    exact ⟨rfl, rfl, rfl⟩
  · rfl
  · rfl
  · rfl
  · rfl

/-- C3 witness: the general cache-hit and exact-hit clauses applied at a
concrete cache and symbol table. -/
theorem c3_witness :
    (proxyGetattr tabAddcontrol [("X".toList, 3)] "X".toList).result =
      .ok 3 ∧
    (proxyGetattr tabAddcontrol [] "ENaddcontrol".toList).result = .ok 7 :=
  ⟨(c3_symbol_resolution_order_and_cache.1 tabAddcontrol
      [("X".toList, 3)] "X".toList 3 rfl).1,
   (c3_symbol_resolution_order_and_cache.2.1 tabAddcontrol
      [] "ENaddcontrol".toList 7 rfl rfl).1⟩

/-- C5: for every fixed-capacity byte buffer and every input value, the
write accessor (after encoding non-byte input as UTF-8) raises the
capacity error exactly when the encoded length plus the terminating zero
byte exceeds the capacity, in which case the buffer memory is unchanged;
otherwise it copies the bytes and appends the zero terminator, after
which the read accessor returns exactly the written bytes. -/
theorem c5_buffer_capacity_fail_closed (buf : CBuffer) (v : BufInput) :
    ((bufferWrite buf v).2.isSome =
      decide ((encodeBufInput v).length + 1 > buf.n)) ∧
    ((encodeBufInput v).length + 1 > buf.n →
      bufferWrite buf v = (buf, some "buffer too small")) ∧
    ((encodeBufInput v).length + 1 ≤ buf.n →
      bufferWrite buf v =
        ({ buf with
            mem := encodeBufInput v ++
              0 :: buf.mem.drop ((encodeBufInput v).length + 1) }, none)) ∧
    ((encodeBufInput v).length + 1 ≤ buf.n →
      (∀ x ∈ encodeBufInput v, x ≠ 0) →
      bufferValue (bufferWrite buf v).1 = encodeBufInput v) := by
  by_cases hov : (encodeBufInput v).length ≥ buf.n
  · have hov2 : (encodeBufInput v).length + 1 > buf.n := by omega
    have hw : bufferWrite buf v = (buf, some "buffer too small") := by
      unfold bufferWrite
      rw [if_pos hov]
    refine ⟨by rw [hw]; simp [hov2], fun _ => hw, fun hle => absurd hle (by omega),
      fun hle => absurd hle (by omega)⟩
  · have hle : (encodeBufInput v).length + 1 ≤ buf.n := by omega
    have hw : bufferWrite buf v =
        ({ buf with
            mem := encodeBufInput v ++
              0 :: buf.mem.drop ((encodeBufInput v).length + 1) }, none) := by
      unfold bufferWrite
      rw [if_neg hov]
    refine ⟨by rw [hw]; simp; omega, fun hgt => absurd hgt (by omega),
      fun _ => hw, fun _ hnz => ?_⟩
    rw [hw]
    exact takeWhile_append_zero _ _ hnz

/-- C5 witness: a buffer of capacity 8 rejects a write of 9 content bytes
(10 bytes including the terminator) with the capacity error, leaving its
zero-initialised memory unchanged. -/
theorem c5_witness :
    bufferWrite (create_string_buffer 8)
        (.bytes [65, 65, 65, 65, 65, 65, 65, 65, 65]) =
      (create_string_buffer 8, some "buffer too small") :=
  (c5_buffer_capacity_fail_closed (create_string_buffer 8)
    (.bytes [65, 65, 65, 65, 65, 65, 65, 65, 65])).2.1 (by decide)

/-- Helper for C8: the alternate-probing loop raises exactly when every
alternate is absent, and the raised error carries the requested name. -/
theorem tryAlts_error_iff (tab : SymTab) (cache : List (List Char × Nat))
    (name : List Char) (alts : List (List Char)) :
    ∀ probes,
      ((∃ e, (tryAlts tab cache name probes alts).result = .error e) ↔
        ∀ a ∈ alts, tab a = none) ∧
      (∀ e, (tryAlts tab cache name probes alts).result = .error e →
        e = name) := by
  induction alts with
  | nil =>
    intro probes
    refine ⟨⟨fun _ => by simp, fun _ => ⟨name, rfl⟩⟩, fun e he => ?_⟩
    simpa [tryAlts] using he.symm
  | cons a rest ih =>
    intro probes
    cases ha : tab a with
    | some c =>
      refine ⟨⟨fun ⟨e, he⟩ => ?_, fun hall => ?_⟩, fun e he => ?_⟩
      · rw [tryAlts, ha] at he
        exact absurd he (by simp)
      · exact absurd (hall a (by simp)) (by simp [ha])
      · rw [tryAlts, ha] at he
        exact absurd he (by simp)
    | none =>
      have hstep : tryAlts tab cache name probes (a :: rest) =
          tryAlts tab cache name (probes + 1) rest := by
        rw [tryAlts, ha]
      rw [hstep]
      refine ⟨⟨fun he => ?_, fun hall => ?_⟩, (ih (probes + 1)).2⟩
      · intro x hx
        rcases List.mem_cons.mp hx with rfl | hx2
        · exact ha
        · exact (ih (probes + 1)).1.mp he x hx2
      · exact (ih (probes + 1)).1.mpr (fun x hx => hall x (by simp [hx]))

/-- C8: a symbol lookup on a fresh proxy raises (rather than returning a
placeholder) if and only if neither the exact requested name nor any
alternate-convention name resolves in the loaded library, and the raised
failure carries the originally requested name. -/
theorem c8_missing_symbol_error (tab : SymTab) (name : List Char) :
    ((∃ e, (proxyGetattr tab [] name).result = .error e) ↔
      (tab name = none ∧ ∀ alt ∈ altNames name, tab alt = none)) ∧
    (∀ e, (proxyGetattr tab [] name).result = .error e → e = name) := by
  have hfresh : lookupAssoc ([] : List (List Char × Nat)) name = none := rfl
  cases hx : tab name with
  | some c =>
    have hok : (proxyGetattr tab [] name).result = .ok c := by
      unfold proxyGetattr
      rw [hx]
      rfl
    refine ⟨⟨fun ⟨e, he⟩ => ?_, fun ⟨h1, _⟩ => ?_⟩, fun e he => ?_⟩
    · rw [hok] at he; exact absurd he (by simp)
    · exact absurd h1 (by simp)
    · rw [hok] at he; exact absurd he (by simp)
  | none =>
    have hstep : proxyGetattr tab [] name =
        tryAlts tab [] name 1 (altNames name) := by
      unfold proxyGetattr
      rw [hx]
      rfl
    rw [hstep]
    have halts := tryAlts_error_iff tab [] name (altNames name) 1
    refine ⟨⟨fun he => ⟨rfl, halts.1.mp he⟩, fun ⟨_, h2⟩ => halts.1.mpr h2⟩,
      halts.2⟩

/-- C8 witness: on an empty symbol table the lookup of `EN_foo` raises,
and every raised error equals the requested name. -/
theorem c8_witness :
    (∃ e, (proxyGetattr (fun _ => none) [] "EN_foo".toList).result =
      .error e) ∧
    (∀ e, (proxyGetattr (fun _ => none) [] "EN_foo".toList).result =
      .error e → e = "EN_foo".toList) :=
  ⟨(c8_missing_symbol_error (fun _ => none) "EN_foo".toList).1.mpr
      ⟨rfl, fun _ _ => rfl⟩,
   (c8_missing_symbol_error (fun _ => none) "EN_foo".toList).2⟩

/-- C10: every scalar type factory called with no argument returns a fresh
scalar memory cell whose value accessor round-trips what is stored, while
a call with a value returns only the plain host conversion (never a cell):
`c_int(5)` is the integer 5 and `c_double(2)` the float 2.0 — so only the
zero-argument form yields an object whose foreign cell `byref` can
extract; `byref` hands a plain number back unchanged. -/
theorem c10_scalar_factory_dichotomy :
    (∀ (t : CScalarType) (v : PyNum),
        scalarCall t none = .cell (ptrInit t.ctype) ∧
        ptrGetValue (ptrSetValue (ptrInit t.ctype) v) = v ∧
        scalarCall t (some v) = .plain (t.pycast v)) ∧
    scalarCall c_int (some (.vint 5)) = .plain (.vint 5) ∧
    scalarCall c_long (some (.vint 5)) = .plain (.vint 5) ∧
    scalarCall c_double (some (.vint 2)) = .plain (.vfloat 2) ∧
    scalarCall c_float (some (.vint 2)) = .plain (.vfloat 2) ∧
    (∀ p, byrefScalar (.cell p) = .memRef p) ∧
    (∀ v, byrefScalar (.plain v) = .raw v) := by
  refine ⟨fun t v => ⟨rfl, rfl, rfl⟩,
    rfl, rfl, ?_, ?_, fun p => rfl, fun v => rfl⟩
  · show ScalarCallResult.plain (pyFloatCast (.vint 2)) = .plain (.vfloat 2)
    norm_num [pyFloatCast]
  · show ScalarCallResult.plain (pyFloatCast (.vint 2)) = .plain (.vfloat 2)
    norm_num [pyFloatCast]

set_option maxRecDepth 100000

/-- C4 counterexample: the claim calls the Windows pointee of the manual
`MSXstep` prototype's last parameter a wide integer, but the source's
Windows branch declares `double *tleft` — a floating-point pointee, not an
integer type of any width. -/
theorem c4_counterexample_windows_pointee_double :
    msxstepManualProto true =
      "int MSXstep(double *t, double *tleft);\n".toList ∧
    lastParamPointeeToken (msxstepManualProto true) = "double".toList ∧
    (["long long".toList, "int64_t".toList, "__int64".toList,
        "uint64_t".toList, "unsigned long long".toList, "long".toList,
        "int".toList, "unsigned".toList, "intptr_t".toList,
        "size_t".toList].contains
      (lastParamPointeeToken (msxstepManualProto true))) = false := by
  decide

/-- C4 amended: the final compiled declaration set is, in order, the
opaque project-handle typedef, then the manually authored
platform-conditional `MSXstep` prototype — whose last parameter's pointee
type is `double` on Windows and a platform-native `long` on non-Windows —
then the auto-extracted prototypes with every auto-extracted `MSXstep`
line discarded, so no text mentioning that symbol survives from the
headers regardless of what they declare. -/
theorem c4_amended_final_decl_structure (win : Bool) (fs : FileSys)
    (hp : Option String) :
    (ensure_cdef win fs hp initRegState).cdefDecls =
      some (manualCdefTypedef ++ msxstepManualProto win ++
        removeMSXstepLines (load_decls_from_header win fs hp)) ∧
    containsSub "MSXstep".toList
      (removeMSXstepLines (load_decls_from_header win fs hp)) = false ∧
    lastParamPointeeToken (msxstepManualProto true) = "double".toList ∧
    lastParamPointeeToken (msxstepManualProto false) = "long".toList := by
  refine ⟨?_, ?_, by decide, by decide⟩
  · simp [ensure_cdef, initRegState, buildDecls]
  · unfold removeMSXstepLines
    by_cases hdec : load_decls_from_header win fs hp = []
    · rw [hdec]
      decide
    · rw [if_neg hdec]
      apply containsSub_joinNl_nl
      · decide
      · decide
      · intro p hp2
        have := List.of_mem_filter hp2
        simpa using this

/-- C6: the prototype extractor reads only the paths that exist (a missing
path anywhere in the list contributes nothing), and the collected
prototype list is de-duplicated by exact normalized text preserving
first-occurrence order; concretely, a header repeating a prototype (up to
whitespace) followed by a distinct one yields exactly two entries in
first-seen order, and a prototype repeated across two headers appears
once. -/
theorem c6_dedup_first_occurrence :
    (∀ (win : Bool) (fs : FileSys) (l1 l2 : List String) (p : String),
        fs p = none →
        protosFromPaths win fs (l1 ++ p :: l2) =
          protosFromPaths win fs (l1 ++ l2)) ∧
    (∀ (win : Bool) (fs : FileSys) (paths : List String),
        uniqProtos win fs paths = firstOccur (protosFromPaths win fs paths)) ∧
    uniqProtos false fsScenario ["one.h"] =
      ["int ENopen(char *f1);".toList, "int ENclose(void);".toList] ∧
    uniqProtos false fsScenario ["a.h", "b.h"] =
      ["int ENopen(char *f1);".toList, "int ENclose(void);".toList] := by
  refine ⟨?_, ?_, by decide, by decide⟩
  · intro win fs l1 l2 p hmiss
    unfold protosFromPaths
    rw [List.foldl_append, List.foldl_cons, List.foldl_append, hmiss]
  · intro win fs paths
    exact dedupScan_eq_firstOccur _

/-- C6 witness: the missing-path clause applied at a concrete filesystem
and path list. -/
theorem c6_witness :
    protosFromPaths false fsScenario (["a.h"] ++ "missing.h" :: ["b.h"]) =
      protosFromPaths false fsScenario (["a.h"] ++ ["b.h"]) :=
  c6_dedup_first_occurrence.1 false fsScenario ["a.h"] ["b.h"] "missing.h"
    (by decide)

/-- C7: for every matched prototype, the normalization collapses all
internal whitespace to single spaces — in every prototype the extractor
emits, the only whitespace character is a single space, never doubled and
never at either end — and for every matched prototype the `int` return
type is prefixed exactly when the collapsed text begins directly with the
EN/EN_/MSX/MSX_ function name (return type omitted), the collapsed text
being kept unchanged otherwise; the claim's two-line header yields exactly
its two distinct normalized prototype strings. -/
theorem c7_normalized_prototypes :
    (∀ (win : Bool) (text proto : List Char),
        proto ∈ extractProtos win text →
        allWsSingleSpace proto = true ∧ noAdjacentSpaces proto = true ∧
        headNonSpace proto = true ∧ lastNonSpace proto = true) ∧
    (∀ m : List Char, protoNeedsInt (collapseStrip m) = true →
        normalizeProto m = "int ".toList ++ collapseStrip m) ∧
    (∀ m : List Char, protoNeedsInt (collapseStrip m) = false →
        normalizeProto m = collapseStrip m) ∧
    extractProtos false
        ("int ENopen(char *f1, char *f2, char *f3);\n" ++
          "int EN_open(void *ph, char *f1, char *f2, char *f3);\n").toList =
      ["int ENopen(char *f1, char *f2, char *f3);".toList,
       "int EN_open(void *ph, char *f1, char *f2, char *f3);".toList] ∧
    decide ("int ENopen(char *f1, char *f2, char *f3);".toList =
      "int EN_open(void *ph, char *f1, char *f2, char *f3);".toList) = false ∧
    extractProtos false "ENgeterror(int, char *, int);\n".toList =
      ["int ENgeterror(int, char *, int);".toList] ∧
    extractProtos false "int \t ENopen(  char *f1 ,\n   char *f2 );\n".toList =
      ["int ENopen( char *f1 , char *f2 );".toList] := by
  refine ⟨?_, ?_, ?_, by decide, by decide, by decide, by decide⟩
  · intro win text proto hmem
    unfold extractProtos at hmem
    obtain ⟨m, _, rfl⟩ := List.mem_map.mp hmem
    exact normalizeProto_shape m
  · intro m h
    rw [normalizeProto_eq_ite, if_pos h]
  · intro m h
    rw [normalizeProto_eq_ite, if_neg (by simp [h])]

/-- C7 witness: the universal clauses applied at concrete prototypes — the
shape clause at a member of a concrete extraction, the `int`-prefix clause
at a match with omitted return type, and the keep-unchanged clause at a
match with an explicit return type. -/
theorem c7_witness :
    (allWsSingleSpace "int ENgeterror(int, char *, int);".toList = true ∧
      noAdjacentSpaces "int ENgeterror(int, char *, int);".toList = true ∧
      headNonSpace "int ENgeterror(int, char *, int);".toList = true ∧
      lastNonSpace "int ENgeterror(int, char *, int);".toList = true) ∧
    normalizeProto "ENgeterror(int, char *, int);".toList =
      "int ".toList ++ collapseStrip "ENgeterror(int, char *, int);".toList ∧
    normalizeProto "int ENopen(void);".toList =
      collapseStrip "int ENopen(void);".toList :=
  ⟨c7_normalized_prototypes.1 false "ENgeterror(int, char *, int);\n".toList
      "int ENgeterror(int, char *, int);".toList (by decide),
   c7_normalized_prototypes.2.1 "ENgeterror(int, char *, int);".toList
      (by decide),
   c7_normalized_prototypes.2.2.1 "int ENopen(void);".toList (by decide)⟩

/-- C9: the extractor pipeline is total on its text input — reading header
bytes under the `ignore` handler always yields a text (where the strict
reading can fail), extraction on that text always yields a prototype list,
and malformed declarations are simply dropped rather than raising. -/
theorem c9_extractor_total :
    (∀ bs : List Nat, ∃ s, read_text true bs = some s) ∧
    (∀ (win : Bool) (bs : List Nat), ∃ protos,
        (read_text true bs).map (fun t => extractProtos win t) =
          some protos) ∧
    read_text false [0xFF] = none ∧
    utf8DecodeIgnore [0x69, 0xFF, 0x6E] = ['i', 'n'] ∧
    extractProtos false "int EN_foo(int;\ngarbage ((( ;;\n".toList = [] ∧
    extractProtos false "#if\nint ENopen(".toList = [] := by
  refine ⟨fun bs => ⟨utf8DecodeIgnore bs, rfl⟩,
    fun win bs => ⟨extractProtos win (utf8DecodeIgnore bs), rfl⟩,
    by decide, by decide, by decide, by decide⟩

end EpytCompat
